import Mathlib

/-!
# Verification of nPrintML's bounded-concurrency extraction pipeline

Shallow embedding of `src/nprintml/net/step.py` and `src/nprintml/util.py`:

* `PrimedIterator` (`util.py`): a lazily-produced sequence whose first element
  is retrieved eagerly; iterators are modelled as lists, the mutable state of
  the shared `itertools.chain` iterator is modelled by explicit state passing.
* `Net.generate_pcaps`, `Net.filter_pcaps`, `Net.make_output_path`,
  `Net.execute_nprint` (`net/step.py`): input enumeration, label filtering,
  destination assignment with collision checking, and the per-item invocation.
  Filesystem paths are lists of components; the filesystem is a list of
  existing paths; external process results are oracle inputs.
* `Net.generate_npts` (`net/step.py`): the bounded-concurrency drain loop,
  modelled as a small-step transition system over an explicit pipeline state,
  with the `ThreadPoolExecutor` pool captured by queued/running task lists and
  a nondeterministic completion schedule.
-/

namespace NPrintML

/-! ## `util.py`: `PrimedIterator` -/

/-- The remaining state of the single shared `itertools.chain` iterator that
`PrimedIterator.__iter__` hands out (`self.__chain__`). A fresh
`PrimedIterator(first, iterator)` has `chain = first :: iterator`. -/
structure PrimedIterator (α : Type) where
  chain : List α
deriving Repr, DecidableEq

namespace PrimedIterator

/-- `PrimedIterator.__init__(first, iterator)`:
`self.__chain__ = itertools.chain((first,), iterator)`. -/
def init (first : α) (iterator : List α) : PrimedIterator α :=
  ⟨first :: iterator⟩

/-- One `next()` call on the shared chain iterator: yields the head and the
mutated iterator state, or nothing when exhausted. -/
def next? (p : PrimedIterator α) : Option (α × PrimedIterator α) :=
  match p.chain with
  | [] => none
  | x :: xs => some (x, ⟨xs⟩)

/-- `n` successive `next()` calls on the shared chain iterator (a consumer
taking up to `n` elements): the elements delivered, and the iterator state
left behind for the next consumer. -/
def takeFrom (p : PrimedIterator α) (n : Nat) : List α × PrimedIterator α :=
  match n, p.chain with
  | 0, _ => ([], p)
  | _ + 1, [] => ([], p)
  | n + 1, x :: xs =>
      let rest := takeFrom ⟨xs⟩ n
      (x :: rest.1, rest.2)

/-- A full iteration (`list(p)`): consumes the shared chain to exhaustion. -/
def drain (p : PrimedIterator α) : List α × PrimedIterator α :=
  p.takeFrom p.chain.length

/-- Outcome of `PrimedIterator.prime`: either a primed iterator over all the
elements, or the supplied default returned for an exhausted iterator. -/
inductive PrimeResult (α β : Type) where
  | primed (p : PrimedIterator α)
  | defaulted (d : β)
deriving Repr, DecidableEq

/-- `PrimedIterator.prime(iterator, default=Empty)`: retrieve the first item;
on `StopIteration` return the default when one is given (`default = some d`)
and re-raise (`Except.error`) when none is (`default = none`); otherwise
return `cls(first, iterator)` over the first element and the remainder. -/
def prime (iterator : List α) (default : Option β) : Except Unit (PrimeResult α β) :=
  match iterator with
  | [] =>
      match default with
      | some d => .ok (.defaulted d)
      | none => .error ()
  | first :: rest => .ok (.primed (init first rest))

end PrimedIterator

/-! ## `net/step.py`: paths, filesystem, configuration -/

/-- A filesystem path, as its list of components (`pathlib.PurePath.parts`,
without any root). -/
abbrev Path := List String

/-- The filesystem, as the list of paths that currently exist. -/
abbrev FS := List Path

/-- `str(path)`: components joined by `/` (posix). -/
def pathStr (p : Path) : String := String.intercalate "/" p

/-- `path.name`: the final component. -/
def pathName (p : Path) : String := p.getLast?.getD ""

/-- `path.relative_to(basis)`: drop the leading `basis` components; `none`
models the `ValueError` raised when `basis` is not a prefix of the path. -/
def relativeTo (p basis : Path) : Option Path :=
  if p.take basis.length = basis then some (p.drop basis.length) else none

/-- Index (0-based) of the last `.` in a file name's characters, if any. -/
def lastDotIdx (cs : List Char) : Option Nat :=
  ((List.range cs.length).filter fun i => cs.getD i ' ' = '.').getLast?

/-- `PurePath.with_suffix('.npt')` on a single name: replace the extension
after the final `.` (a leading dot, as in `.bashrc`, is not a suffix), or
append `.npt` when the name has no extension. -/
def setSuffixNpt (name : String) : String :=
  match lastDotIdx name.toList with
  | some i => if 0 < i then String.mk (name.toList.take i) ++ ".npt" else name ++ ".npt"
  | none => name ++ ".npt"

/-- `path.with_suffix('.npt')`: replace the final component's suffix. -/
def withSuffixNpt (p : Path) : Path :=
  p.dropLast ++ [setSuffixNpt (pathName p)]

/-- All nonempty ancestors of a directory path, the path itself included. -/
def ancestors (p : Path) : List Path :=
  (List.range p.length).map fun i => p.take (i + 1)

/-- `dir.mkdir(parents=True, exist_ok=True)`: the directory and all its
ancestors exist afterwards. -/
def mkdirParents (fs : FS) (dir : Path) : FS :=
  fs ++ ancestors dir

/-- The `Net` step's configuration: the fields of `self.args` that the
filtering and invocation paths read (`outdir`, `save_nprint`). -/
structure NetConfig where
  outdir : Path
  save_nprint : Bool
deriving Repr, DecidableEq

/-- `Net.output_directory`: `self.args.outdir / 'nprint'`. -/
def output_directory (cfg : NetConfig) : Path := cfg.outdir ++ ["nprint"]

/-- `Net.default_output`: `self.output_directory / 'netcap.npt'`. -/
def default_output (cfg : NetConfig) : Path := output_directory cfg ++ ["netcap.npt"]

/-- Errors raised during filtering: the `FileExistsError` output-path
collision, and the `ValueError` of `relative_to` on a non-subpath. -/
inductive NetError where
  | fileExists (path : Path)
  | valueError
deriving Repr, DecidableEq

/-- `Net.make_output_path(pcap_output)`: the destination is
`(output_directory / pcap_output).with_suffix('.npt')`; when `save_nprint`
is set, an existing destination raises `FileExistsError` (before any
directory creation) and otherwise parent directories are created eagerly. -/
def make_output_path (cfg : NetConfig) (fs : FS) (pcap_output : Path) :
    Except NetError (Path × FS) :=
  let npt_path := withSuffixNpt (output_directory cfg ++ pcap_output)
  if cfg.save_nprint then
    if npt_path ∈ fs then
      .error (.fileExists npt_path)
    else
      .ok (npt_path, mkdirParents fs npt_path.dropLast)
  else
    .ok (npt_path, fs)

/-- A `--pcap-dir` argument: the directory's path together with the results
of `pcap_dir.rglob('*.pcap')` in scan order. -/
structure PcapDir where
  path : Path
  rglobPcap : List Path
deriving Repr, DecidableEq

/-- `Net.generate_pcaps()`: explicit files first (no basis), then each
directory's recursive matches paired with the directory as basis; with no
files and no directories, exactly one `(None, None)` placeholder. -/
def generate_pcaps (pcap_file : List Path) (pcap_dir : List PcapDir) :
    List (Option Path × Option Path) :=
  if pcap_file ≠ [] ∨ pcap_dir ≠ [] then
    (pcap_file.map fun f => (some f, none)) ++
      (pcap_dir.flatMap fun d => d.rglobPcap.map fun f => (some f, some d.path))
  else
    [(none, none)]

/-- `collections.deque(maxlen=4).append`: append at the right, evicting the
oldest (leftmost) element when the deque is full. -/
def dequeAppend4 (dq : List Path) (x : Path) : List Path :=
  if dq.length < 4 then dq ++ [x] else dq.tail ++ [x]

/-- The last four elements of a list, in order (what a `deque(maxlen=4)`
holds after appending the whole list). -/
def lastFour (l : List Path) : List Path := l.drop (l.length - 4)

/-- The mutable state of one `Net.filter_pcaps` pass: pairs yielded so far,
the bounded `skipped_files` deque, `skipped_count`, and the filesystem. -/
structure FilterSt where
  out : List (Option Path × Option Path)
  skipped : List Path
  skipped_count : Nat
  fs : FS
deriving Repr, DecidableEq

/-- The relative identity `pcap_output` of an enumerated item: relative to
the basis directory when present, else the file's name; `none` for items
without a real path (and for the `ValueError` case). -/
def identityOf (item : Option Path × Option Path) : Option Path :=
  match item with
  | (some p, some basis) => relativeTo p basis
  | (some p, none) => some [pathName p]
  | (none, _) => none

/-- One iteration of the `Net.filter_pcaps` loop body on one enumerated
item: real-path items are identified, checked against the label set (skipped
items feed the deque and the counter), and surviving items get a destination
via `make_output_path`; items without a real path pass through as
`(None, None)`. An error carries the state at raise time. -/
def filterStep (cfg : NetConfig) (labels : Option (List String)) (st : FilterSt)
    (item : Option Path × Option Path) : Except (NetError × FilterSt) FilterSt :=
  match item with
  | (some pcap_file, dir_basis) =>
      let pcap_output? : Option Path :=
        match dir_basis with
        | some basis => relativeTo pcap_file basis
        | none => some [pathName pcap_file]
      match pcap_output? with
      | none => .error (.valueError, st)
      | some pcap_output =>
          let skipIt : Bool :=
            match labels with
            | some idx => !(idx.contains (pathStr pcap_output))
            | none => false
          if skipIt then
            .ok { st with skipped := dequeAppend4 st.skipped pcap_output,
                          skipped_count := st.skipped_count + 1 }
          else
            match make_output_path cfg st.fs pcap_output with
            | .error e => .error (e, st)
            | .ok (npt_file, fs') =>
                .ok { st with out := st.out ++ [(some pcap_file, some npt_file)],
                              fs := fs' }
  | (none, _) => .ok { st with out := st.out ++ [(none, none)] }

/-- `Net.filter_pcaps(pcap_files, labels)`: run the loop body over the
enumerated items, starting from an empty deque and zero count. -/
def filter_pcaps (cfg : NetConfig) (labels : Option (List String))
    (items : List (Option Path × Option Path)) (fs : FS) :
    Except (NetError × FilterSt) FilterSt :=
  items.foldlM (filterStep cfg labels) ⟨[], [], 0, fs⟩

/-- The skipped identities of an item list, in skip order (those real-path
items whose identity is absent from the label index). -/
def skipsOf (idx : List String) (items : List (Option Path × Option Path)) :
    List Path :=
  items.filterMap fun item =>
    match identityOf item with
    | some out => if idx.contains (pathStr out) then none else some out
    | none => none

/-- The per-item yield of `filter_pcaps` (persistence off): items without a
real path pass through as `(None, None)`; real-path items survive with their
computed destination exactly when their identity is in the label index. -/
def survivor (cfg : NetConfig) (idx : List String) (item : Option Path × Option Path) :
    Option (Option Path × Option Path) :=
  match item with
  | (none, _) => some (none, none)
  | (some p, basisOpt) =>
      match identityOf (some p, basisOpt) with
      | some out =>
          if idx.contains (pathStr out) then
            some (some p, some (withSuffixNpt (output_directory cfg ++ out)))
          else
            none
      | none => none

/-- `Net.execute_nprint`'s external invocation outcome: captured stdout
bytes on exit 0, or the `CommandError` raised on abnormal exit. -/
inductive ExecOutcome where
  | success (stdout : List Nat)
  | commandError
deriving Repr, DecidableEq

/-- The tagged byte buffer of `util.py` (a `BytesIO` with a `name` attribute
reflecting the path represented by its contents). -/
structure NamedBytes where
  contents : List Nat
  name : Path
deriving Repr, DecidableEq

/-- `Net.execute_nprint(pcap_file, npt_file)`: on `CommandError` the error
propagates; on success the captured stdout is written to
`npt_file or self.default_output` exactly when `save_nprint` is set (the
write effects are returned explicitly), and a `NamedBytesIO` over the
captured bytes, named by that output path, is returned regardless. -/
def execute_nprint (cfg : NetConfig) (outcome : ExecOutcome) (npt_file : Option Path) :
    Except Unit (NamedBytes × List (Path × List Nat)) :=
  match outcome with
  | .commandError => .error ()
  | .success bytes =>
      let out_file := npt_file.getD (default_output cfg)
      let writes := if cfg.save_nprint then [(out_file, bytes)] else []
      .ok (⟨bytes, out_file⟩, writes)

/-! ## `net/step.py`: `Net.generate_npts` as a transition system

The drain loop of `generate_npts` runs against a `ThreadPoolExecutor` of
`max_workers = concurrency`. The pool is modelled explicitly: a submitted
future is `queued` until a worker picks it up, `running` while its
invocation executes (at most `concurrency` at a time), and `done` once it
completes, until the coordinator's `concurrent.futures.wait` collects it.
Which running task finishes first is the scheduler's choice, so completion
is a nondeterministic transition; `fail` tells which items raise
`CommandError` (their results are absorbed by the `except` clause). The
ghost field `log` records the completion order. -/

/-- `NPRINT_QUEUE_MAX`: bound on enqueued/scheduled `nprint` calls. -/
def NPRINT_QUEUE_MAX : Nat := 10 ^ 6

/-- The state of one `generate_npts` run: the undrawn tail of the filtered
input stream, the pending futures (queued/running/done), the results yielded
so far, the failed items absorbed so far, and the completion-order log. -/
structure NetState (α : Type) where
  remaining : List α
  queued : List α
  running : List α
  done : List α
  yielded : List α
  dropped : List α
  log : List α
deriving Repr, DecidableEq

/-- The initial fill: `executor.submit` over
`itertools.islice(file_stream, NPRINT_QUEUE_MAX)` — the first
`min(NPRINT_QUEUE_MAX, N)` items are admitted, the rest remain undrawn. -/
def initState (input : List α) : NetState α :=
  { remaining := input.drop NPRINT_QUEUE_MAX
    queued := input.take NPRINT_QUEUE_MAX
    running := []
    done := []
    yielded := []
    dropped := []
    log := [] }

/-- The number of admitted-but-not-yet-drained futures (the `futures` set
of `generate_npts`, together with the completed ones not yet collected). -/
def pendingCount (s : NetState α) : Nat :=
  s.queued.length + s.running.length + s.done.length

/-- One transition of the pipeline:

* `start`: a worker of the pool picks up a queued future — only when fewer
  than `conc` (`max_workers`) invocations are running;
* `complete`: any currently running invocation finishes (scheduler's
  choice), joining the completed set and the completion log;
* `drain`: `concurrent.futures.wait(futures, FIRST_COMPLETED)` returns the
  nonempty completed futures as an unordered set; the loop iterates it in
  an arbitrary order (`batch`, some permutation of the completed tasks),
  and for each completed future draws at most one further item from the
  stream (`itertools.islice(file_stream, 1)`) and submits it, then yields
  `future.result()` — absorbing `CommandError`s. -/
inductive NetStep (conc : Nat) (fail : α → Bool) : NetState α → NetState α → Prop where
  | start (s : NetState α) (q : α) (qs : List α) :
      s.queued = q :: qs →
      s.running.length < conc →
      NetStep conc fail s { s with queued := qs, running := s.running ++ [q] }
  | complete (s : NetState α) (l₁ l₂ : List α) (a : α) :
      s.running = l₁ ++ a :: l₂ →
      NetStep conc fail s
        { s with running := l₁ ++ l₂, done := s.done ++ [a], log := s.log ++ [a] }
  | drain (s : NetState α) (batch : List α) :
      s.done ≠ [] →
      batch.Perm s.done →
      NetStep conc fail s
        { remaining := s.remaining.drop batch.length
          queued := s.queued ++ s.remaining.take batch.length
          running := s.running
          done := []
          yielded := s.yielded ++ batch.filter (fun a => !fail a)
          dropped := s.dropped ++ batch.filter fail
          log := s.log }

/-- The states a `generate_npts` run over `input` can reach. -/
inductive Reaches (conc : Nat) (fail : α → Bool) (input : List α) : NetState α → Prop where
  | init : Reaches conc fail input (initState input)
  | next {s s' : NetState α} :
      Reaches conc fail input s → NetStep conc fail s s' → Reaches conc fail input s'

/-- The loop's exit condition `while futures:` — no future is pending. -/
def Final (s : NetState α) : Prop :=
  s.queued = [] ∧ s.running = [] ∧ s.done = []

/-- Batch-structured delivery: `Batched fail log ys` says the completion
log splits into consecutive nonempty rounds (one per
`concurrent.futures.wait` return) and `ys` is the concatenation, round by
round, of each round's successes in some arbitrary per-round order — the
order in which the loop happens to iterate that round's unordered
completed set. -/
inductive Batched (fail : α → Bool) : List α → List α → Prop where
  | nil : Batched fail [] []
  | snoc (log ys seg out : List α) :
      Batched fail log ys →
      seg ≠ [] →
      out.Perm seg →
      Batched fail (log ++ seg) (ys ++ out.filter fun a => !fail a)

/-- The final state of a two-item run (`input = [0, 1]`, concurrency 2, no
failures) under a schedule where item `1` finishes before item `0`: the
results come out as `[1, 0]`, the reverse of submission order. -/
def exFinal : NetState Nat :=
  { remaining := []
    queued := []
    running := []
    done := []
    yielded := [1, 0]
    dropped := []
    log := [1, 0] }

/-- The final state of a two-item run in which item `0` completes before
item `1` (`log = [0, 1]`) but both are collected by one wait round whose
unordered completed set is iterated as `[1, 0]`: the results come out as
`[1, 0]`, against completion order. -/
def exBatchFinal : NetState Nat :=
  { remaining := []
    queued := []
    running := []
    done := []
    yielded := [1, 0]
    dropped := []
    log := [0, 1] }

end NPrintML

/-! ## Theorems -/

namespace NPrintML

theorem takeFrom_eq (l : List α) (n : Nat) :
    PrimedIterator.takeFrom ⟨l⟩ n = (l.take n, ⟨l.drop n⟩) := by
  induction n generalizing l with
  | zero => cases l <;> simp [PrimedIterator.takeFrom]
  | succ n ih =>
      cases l with
      | nil => simp [PrimedIterator.takeFrom]
      | cons x xs => simp [PrimedIterator.takeFrom, ih]

theorem drain_eq (l : List α) : PrimedIterator.drain ⟨l⟩ = (l, ⟨[]⟩) := by
  simp [PrimedIterator.drain, takeFrom_eq]

end NPrintML

namespace NPrintML

theorem length_dequeAppend4_le (dq : List Path) (x : Path) (h : dq.length ≤ 4) :
    (dequeAppend4 dq x).length ≤ 4 := by
  unfold dequeAppend4
  split
  · simp only [List.length_append, List.length_cons, List.length_nil]
    omega
  · simp only [List.length_append, List.length_tail, List.length_cons, List.length_nil]
    omega

theorem lastFour_length_le (l : List Path) : (lastFour l).length ≤ 4 := by
  unfold lastFour
  simp only [List.length_drop]
  omega

theorem lastFour_of_length_le (l : List Path) (h : l.length ≤ 4) : lastFour l = l := by
  unfold lastFour
  have : l.length - 4 = 0 := by omega
  rw [this, List.drop_zero]

theorem lastFour_dequeAppend4 (dq : List Path) (x : Path) (rest : List Path)
    (h : dq.length ≤ 4) :
    lastFour (dequeAppend4 dq x ++ rest) = lastFour (dq ++ x :: rest) := by
  unfold dequeAppend4
  split
  case isTrue hlt =>
    have e : dq ++ [x] ++ rest = dq ++ x :: rest := by simp
    rw [e]
  case isFalse hge =>
    have h4 : dq.length = 4 := by omega
    match dq, h4 with
    | d :: ds, h4 =>
        have hds : ds.length = 3 := by simpa using h4
        have e1 : (d :: ds).tail ++ [x] ++ rest = ds ++ x :: rest := by simp
        have e2 : (d :: ds) ++ x :: rest = d :: (ds ++ x :: rest) := by simp
        rw [e1, e2]
        unfold lastFour
        have e3 : (d :: (ds ++ x :: rest)).length - 4 = ((ds ++ x :: rest).length - 4) + 1 := by
          simp only [List.length_cons, List.length_append, hds]
          omega
        rw [e3, List.drop_succ_cons]

/-- The loop body on an item without a real path: passed through as
`(None, None)` unconditionally, no other state change. -/
theorem filterStep_sourceless (cfg : NetConfig) (labels : Option (List String))
    (st : FilterSt) (basis? : Option Path) :
    filterStep cfg labels st (none, basis?) =
      .ok { st with out := st.out ++ [(none, none)] } := rfl

/-- The loop body on a real-path item identified as `out` that the supplied
label index lacks: the item is skipped into the deque and the counter. -/
theorem filterStep_skip (cfg : NetConfig) (idx : List String) (st : FilterSt)
    (p : Path) (basis? : Option Path) (out : Path)
    (hid : identityOf (some p, basis?) = some out)
    (hc : idx.contains (pathStr out) = false) :
    filterStep cfg (some idx) st (some p, basis?) =
      .ok { st with skipped := dequeAppend4 st.skipped out,
                    skipped_count := st.skipped_count + 1 } := by
  have hc' : pathStr out ∉ idx := by simpa using hc
  cases basis? with
  | none =>
      have h : [pathName p] = out := by simpa [identityOf] using hid
      subst h
      simp [filterStep, hc']
  | some basis =>
      have h : relativeTo p basis = some out := by simpa [identityOf] using hid
      simp [filterStep, h, hc']

/-- The loop body on a real-path item identified as `out` that is not
skipped (no label set, or a label set containing the identity): the
destination is assigned by `make_output_path` and the pair is yielded; a
collision error propagates with the state at raise time. -/
theorem filterStep_yield (cfg : NetConfig) (labels : Option (List String))
    (st : FilterSt) (p : Path) (basis? : Option Path) (out : Path)
    (hid : identityOf (some p, basis?) = some out)
    (hns : labels = none ∨ ∃ idx, labels = some idx ∧ idx.contains (pathStr out) = true) :
    filterStep cfg labels st (some p, basis?) =
      match make_output_path cfg st.fs out with
      | .error e => .error (e, st)
      | .ok (npt_file, fs') =>
          .ok { st with out := st.out ++ [(some p, some npt_file)], fs := fs' } := by
  rcases hns with rfl | ⟨idx, rfl, hc⟩
  · cases basis? with
    | none =>
        have h : [pathName p] = out := by simpa [identityOf] using hid
        subst h
        simp [filterStep]
    | some basis =>
        have h : relativeTo p basis = some out := by simpa [identityOf] using hid
        simp [filterStep, h]
  · have hc' : pathStr out ∈ idx := by simpa using hc
    cases basis? with
    | none =>
        have h : [pathName p] = out := by simpa [identityOf] using hid
        subst h
        simp [filterStep, hc']
    | some basis =>
        have h : relativeTo p basis = some out := by simpa [identityOf] using hid
        simp [filterStep, h, hc']

/-- Characterization of the `filter_pcaps` loop (persistence off, label set
supplied), from any loop state whose deque is within bounds: the yields are
the per-item `survivor`s, the count is the number of skips, and the deque
retains the most recent four skipped identities. -/
theorem filter_pcaps_foldlM (cfg : NetConfig) (hsave : cfg.save_nprint = false)
    (idx : List String) (items : List (Option Path × Option Path)) :
    ∀ st₀ : FilterSt, st₀.skipped.length ≤ 4 →
      (∀ item ∈ items, (identityOf item).isSome ∨ item.1 = none) →
      items.foldlM (filterStep cfg (some idx)) st₀ =
        .ok ⟨st₀.out ++ items.filterMap (survivor cfg idx),
             lastFour (st₀.skipped ++ skipsOf idx items),
             st₀.skipped_count + (skipsOf idx items).length,
             st₀.fs⟩ := by
  induction items with
  | nil =>
      intro st₀ hlen _
      have hskips : skipsOf idx [] = ([] : List Path) := rfl
      rw [hskips]
      simp only [List.filterMap_nil, List.append_nil, List.length_nil, Nat.add_zero,
        lastFour_of_length_le st₀.skipped hlen]
      rfl
  | cons item rest ih =>
      intro st₀ hlen hvalid
      have hrest : ∀ it ∈ rest, (identityOf it).isSome ∨ it.1 = none := by
        intro it hit
        exact hvalid it (List.mem_cons_of_mem item hit)
      have hfold : ∀ st₁ : FilterSt,
          filterStep cfg (some idx) st₀ item = .ok st₁ →
          List.foldlM (filterStep cfg (some idx)) st₀ (item :: rest) =
            List.foldlM (filterStep cfg (some idx)) st₁ rest := by
        intro st₁ h
        show Except.bind (filterStep cfg (some idx) st₀ item) _ = _
        rw [h]
        rfl
      obtain ⟨pfile?, basis?⟩ := item
      cases pfile? with
      | none =>
          rw [hfold _ (filterStep_sourceless cfg (some idx) st₀ basis?),
            ih { st₀ with out := st₀.out ++ [(none, none)] } (by simpa using hlen) hrest]
          have hskips : skipsOf idx ((none, basis?) :: rest) = skipsOf idx rest := by
            simp [skipsOf, List.filterMap_cons, identityOf]
          have hsurv : survivor cfg idx (none, basis?) = some (none, none) := rfl
          rw [hskips]
          simp only [List.filterMap_cons, hsurv, Except.ok.injEq, FilterSt.mk.injEq]
          simp
      | some p =>
          have hid : (identityOf (some p, basis?)).isSome := by
            rcases hvalid _ (List.mem_cons_self _ _) with h | h
            · exact h
            · simp at h
          obtain ⟨out, hout⟩ := Option.isSome_iff_exists.mp hid
          cases hc : idx.contains (pathStr out) with
          | false =>
              have hc' : pathStr out ∉ idx := by simpa using hc
              rw [hfold _ (filterStep_skip cfg idx st₀ p basis? out hout hc),
                ih { st₀ with skipped := dequeAppend4 st₀.skipped out,
                              skipped_count := st₀.skipped_count + 1 }
                  (length_dequeAppend4_le st₀.skipped out hlen) hrest]
              have hskips : skipsOf idx ((some p, basis?) :: rest) =
                  out :: skipsOf idx rest := by
                simp [skipsOf, List.filterMap_cons, hout, hc']
              have hsurv : survivor cfg idx (some p, basis?) = none := by
                simp [survivor, hout, hc']
              rw [hskips]
              simp only [List.filterMap_cons, hsurv, Except.ok.injEq, FilterSt.mk.injEq,
                List.length_cons,
                lastFour_dequeAppend4 st₀.skipped out (skipsOf idx rest) hlen]
              refine ⟨trivial, trivial, by omega, trivial⟩
          | true =>
              have hc' : pathStr out ∈ idx := by simpa using hc
              have hmop : make_output_path cfg st₀.fs out =
                  .ok (withSuffixNpt (output_directory cfg ++ out), st₀.fs) := by
                simp [make_output_path, hsave]
              have hstep : filterStep cfg (some idx) st₀ (some p, basis?) =
                  .ok { st₀ with out := st₀.out ++
                          [(some p, some (withSuffixNpt (output_directory cfg ++ out)))] } := by
                rw [filterStep_yield cfg (some idx) st₀ p basis? out hout
                  (Or.inr ⟨idx, rfl, hc⟩), hmop]
              rw [hfold _ hstep,
                ih { st₀ with out := st₀.out ++
                        [(some p, some (withSuffixNpt (output_directory cfg ++ out)))] }
                  (by simpa using hlen) hrest]
              have hskips : skipsOf idx ((some p, basis?) :: rest) = skipsOf idx rest := by
                simp [skipsOf, List.filterMap_cons, hout, hc']
              have hsurv : survivor cfg idx (some p, basis?) =
                  some (some p, some (withSuffixNpt (output_directory cfg ++ out))) := by
                simp [survivor, hout, hc']
              rw [hskips]
              simp only [List.filterMap_cons, hsurv, Except.ok.injEq, FilterSt.mk.injEq]
              simp

end NPrintML

/-- C5: for every enumerated item with a real path, `filter_pcaps` computes
its relative identity (relative to the basis when present, else the
filename) and, with a label set supplied, yields the item if and only if
that identity is in the label set; every skipped item increments the skip
count, and at most 4 skipped identities are retained for the diagnostic
report while items beyond that bound are still counted. -/
theorem C5_label_filtering (cfg : NPrintML.NetConfig) (idx : List String)
    (items : List (Option NPrintML.Path × Option NPrintML.Path)) (fs : NPrintML.FS)
    (hsave : cfg.save_nprint = false)
    (hvalid : ∀ item ∈ items, (NPrintML.identityOf item).isSome ∨ item.1 = none) :
    NPrintML.filter_pcaps cfg (some idx) items fs =
      .ok ⟨items.filterMap (NPrintML.survivor cfg idx),
           NPrintML.lastFour (NPrintML.skipsOf idx items),
           (NPrintML.skipsOf idx items).length,
           fs⟩ ∧
    (∀ (p : NPrintML.Path) (basis? : Option NPrintML.Path) (out : NPrintML.Path),
      NPrintML.identityOf (some p, basis?) = some out →
      ((NPrintML.survivor cfg idx (some p, basis?)).isSome ↔ NPrintML.pathStr out ∈ idx)) ∧
    (NPrintML.lastFour (NPrintML.skipsOf idx items)).length ≤ 4 := by
  refine ⟨?_, ?_, NPrintML.lastFour_length_le _⟩
  · have h := NPrintML.filter_pcaps_foldlM cfg hsave idx items ⟨[], [], 0, fs⟩ (by simp) hvalid
    simpa [NPrintML.filter_pcaps] using h
  · intro p basis? out hout
    simp only [NPrintML.survivor, hout]
    by_cases h : NPrintML.pathStr out ∈ idx <;> simp [h]

/-- C5 witness: labels `{a.pcap, b.pcap}` against inputs `a, b, c`: `a` and
`b` survive with destinations, `c` is skipped, counted and retained. -/
theorem C5_label_filtering_witness :
    NPrintML.filter_pcaps ⟨["outdir"], false⟩ (some ["a.pcap", "b.pcap"])
        [(some ["a.pcap"], none), (some ["b.pcap"], none), (some ["c.pcap"], none)] [] =
      .ok ⟨[(some ["a.pcap"], some ["outdir", "nprint", "a.npt"]),
            (some ["b.pcap"], some ["outdir", "nprint", "b.npt"])],
           [["c.pcap"]], 1, []⟩ :=
  (C5_label_filtering ⟨["outdir"], false⟩ ["a.pcap", "b.pcap"]
    [(some ["a.pcap"], none), (some ["b.pcap"], none), (some ["c.pcap"], none)] []
    rfl (by decide)).1.trans (by rfl)

/-- C9: when more than 4 items are skipped, the retained identities are
exactly the 4 most recently skipped ones in skip order (the bounded deque
evicts the oldest), not the first 4 encountered. -/
theorem C9_skip_retention (cfg : NPrintML.NetConfig) (idx : List String)
    (items : List (Option NPrintML.Path × Option NPrintML.Path)) (fs : NPrintML.FS)
    (hsave : cfg.save_nprint = false)
    (hvalid : ∀ item ∈ items, (NPrintML.identityOf item).isSome ∨ item.1 = none)
    (hgt : 4 < (NPrintML.skipsOf idx items).length) :
    ∃ st : NPrintML.FilterSt,
      NPrintML.filter_pcaps cfg (some idx) items fs = .ok st ∧
      st.skipped =
        (NPrintML.skipsOf idx items).drop ((NPrintML.skipsOf idx items).length - 4) ∧
      st.skipped.length = 4 := by
  have h := NPrintML.filter_pcaps_foldlM cfg hsave idx items ⟨[], [], 0, fs⟩ (by simp) hvalid
  refine ⟨⟨items.filterMap (NPrintML.survivor cfg idx),
           NPrintML.lastFour (NPrintML.skipsOf idx items),
           (NPrintML.skipsOf idx items).length, fs⟩, ?_, rfl, ?_⟩
  · simpa [NPrintML.filter_pcaps] using h
  · show (NPrintML.lastFour (NPrintML.skipsOf idx items)).length = 4
    unfold NPrintML.lastFour
    simp only [List.length_drop]
    omega

/-- C9 witness: six skipped inputs `c1 … c6`; the deque retains
`c3, c4, c5, c6` — the most recent four, not the first four. -/
theorem C9_skip_retention_witness :
    ∃ st : NPrintML.FilterSt,
      NPrintML.filter_pcaps ⟨["o"], false⟩ (some [])
          [(some ["c1.pcap"], none), (some ["c2.pcap"], none), (some ["c3.pcap"], none),
           (some ["c4.pcap"], none), (some ["c5.pcap"], none), (some ["c6.pcap"], none)] [] =
        .ok st ∧
      st.skipped = [["c3.pcap"], ["c4.pcap"], ["c5.pcap"], ["c6.pcap"]] ∧
      st.skipped.length = 4 := by
  obtain ⟨st, h1, h2, h3⟩ := C9_skip_retention ⟨["o"], false⟩ []
    [(some ["c1.pcap"], none), (some ["c2.pcap"], none), (some ["c3.pcap"], none),
     (some ["c4.pcap"], none), (some ["c5.pcap"], none), (some ["c6.pcap"], none)] []
    rfl (by decide) (by decide)
  exact ⟨st, h1, h2.trans (by decide), h3⟩

/-- C6 counterexample: with persistence enabled, a fresh output directory
and two items both mapping to `out/nprint/x.npt`, the filter yields BOTH
items without any collision error — the second item's filtering does not
fail, because the destination file does not exist at filter time (it would
only be written by the first item's invocation, which has not run). -/
theorem C6_collision_counterexample :
    NPrintML.filter_pcaps ⟨["out"], true⟩ none
        [(some ["a", "x.pcap"], none), (some ["b", "x.pcap"], none)] [] =
      .ok ⟨[(some ["a", "x.pcap"], some ["out", "nprint", "x.npt"]),
            (some ["b", "x.pcap"], some ["out", "nprint", "x.npt"])],
           [], 0,
           [["out"], ["out", "nprint"], ["out"], ["out", "nprint"]]⟩ := rfl

/-- C6 (amended): with persistence enabled, filtering an item fails with the
collision error exactly when its destination already exists at the moment
the item is filtered; the failure is raised before the item is yielded (so
before its invocation), carrying the loop state unchanged — the filesystem,
and so the first item's file, is untouched; when the destination does not
exist, the item is yielded and the destination's parent directories are
created eagerly at filter time. -/
theorem C6_collision_amended (cfg : NPrintML.NetConfig) (labels : Option (List String))
    (st : NPrintML.FilterSt) (p : NPrintML.Path) (basis? : Option NPrintML.Path)
    (out : NPrintML.Path)
    (hsave : cfg.save_nprint = true)
    (hid : NPrintML.identityOf (some p, basis?) = some out)
    (hns : labels = none ∨
      ∃ idx, labels = some idx ∧ idx.contains (NPrintML.pathStr out) = true) :
    (NPrintML.withSuffixNpt (NPrintML.output_directory cfg ++ out) ∈ st.fs →
      NPrintML.filterStep cfg labels st (some p, basis?) =
        .error (.fileExists (NPrintML.withSuffixNpt (NPrintML.output_directory cfg ++ out)),
                st)) ∧
    (NPrintML.withSuffixNpt (NPrintML.output_directory cfg ++ out) ∉ st.fs →
      NPrintML.filterStep cfg labels st (some p, basis?) =
        .ok { st with
              out := st.out ++
                [(some p, some (NPrintML.withSuffixNpt (NPrintML.output_directory cfg ++ out)))],
              fs := NPrintML.mkdirParents st.fs
                (NPrintML.withSuffixNpt (NPrintML.output_directory cfg ++ out)).dropLast } ∧
      ∀ q ∈ NPrintML.ancestors
          (NPrintML.withSuffixNpt (NPrintML.output_directory cfg ++ out)).dropLast,
        q ∈ NPrintML.mkdirParents st.fs
          (NPrintML.withSuffixNpt (NPrintML.output_directory cfg ++ out)).dropLast) := by
  constructor
  · intro hex
    rw [NPrintML.filterStep_yield cfg labels st p basis? out hid hns]
    simp [NPrintML.make_output_path, hsave, hex]
  · intro hnex
    refine ⟨?_, ?_⟩
    · rw [NPrintML.filterStep_yield cfg labels st p basis? out hid hns]
      simp [NPrintML.make_output_path, hsave, hnex]
    · intro q hq
      exact List.mem_append_right _ hq

/-- C6 (amended) witness: the first item's output `out/nprint/x.npt` has
been written; filtering a second item with the same destination fails with
the collision error, the loop state carried by the error unchanged. -/
theorem C6_collision_amended_witness :
    NPrintML.filterStep ⟨["out"], true⟩ none
        ⟨[(some ["a", "x.pcap"], some ["out", "nprint", "x.npt"])], [], 0,
         [["out"], ["out", "nprint"], ["out", "nprint", "x.npt"]]⟩
        (some ["b", "x.pcap"], none) =
      .error (.fileExists ["out", "nprint", "x.npt"],
        ⟨[(some ["a", "x.pcap"], some ["out", "nprint", "x.npt"])], [], 0,
         [["out"], ["out", "nprint"], ["out", "nprint", "x.npt"]]⟩) :=
  ((C6_collision_amended ⟨["out"], true⟩ none
      ⟨[(some ["a", "x.pcap"], some ["out", "nprint", "x.npt"])], [], 0,
       [["out"], ["out", "nprint"], ["out", "nprint", "x.npt"]]⟩
      ["b", "x.pcap"] none ["x.pcap"] rfl rfl (Or.inl rfl)).1 (by decide)).trans
    (by rfl)

/-- C7: with no explicit pcap files and no pcap directories (sourceless
mode), `generate_pcaps` yields exactly one `(None, None)` pair, and
`filter_pcaps` passes an item without a real path through unconditionally
with a null destination, for every label set (supplied or not). -/
theorem C7_sourceless (cfg : NPrintML.NetConfig) (labels : Option (List String))
    (fs : NPrintML.FS) (basis? : Option NPrintML.Path) :
    NPrintML.generate_pcaps [] [] = [(none, none)] ∧
    (∀ (st : NPrintML.FilterSt) (b : Option NPrintML.Path),
      NPrintML.filterStep cfg labels st (none, b) =
        .ok { st with out := st.out ++ [(none, none)] }) ∧
    NPrintML.filter_pcaps cfg labels [(none, basis?)] fs =
      .ok ⟨[(none, none)], [], 0, fs⟩ := by
  exact ⟨rfl, fun st b => rfl, rfl⟩

/-- C7 witness: sourceless mode at a concrete configuration and label set. -/
theorem C7_sourceless_witness :
    NPrintML.generate_pcaps [] [] = [(none, none)] ∧
    NPrintML.filterStep ⟨["o"], true⟩ (some ["lbl"]) ⟨[], [], 0, []⟩ (none, none) =
      .ok ⟨[(none, none)], [], 0, []⟩ ∧
    NPrintML.filter_pcaps ⟨["o"], true⟩ (some ["lbl"]) [(none, none)] [["o"]] =
      .ok ⟨[(none, none)], [], 0, [["o"]]⟩ :=
  ⟨(C7_sourceless ⟨["o"], true⟩ (some ["lbl"]) [["o"]] none).1,
   (C7_sourceless ⟨["o"], true⟩ (some ["lbl"]) [["o"]] none).2.1 ⟨[], [], 0, []⟩ none,
   (C7_sourceless ⟨["o"], true⟩ (some ["lbl"]) [["o"]] none).2.2⟩

/-- C8: a successful invocation returns a tagged byte buffer
(`NamedBytesIO`) over the captured stdout bytes, named by the item's
destination path — or the default output path when none was computed — and
those bytes are written to the destination file if and only if disk
persistence (`save_nprint`) is enabled. -/
theorem C8_execute_success (cfg : NPrintML.NetConfig) (bytes : List Nat)
    (npt_file : Option NPrintML.Path) :
    NPrintML.execute_nprint cfg (.success bytes) npt_file =
      .ok (⟨bytes, npt_file.getD (NPrintML.default_output cfg)⟩,
           if cfg.save_nprint then
             [(npt_file.getD (NPrintML.default_output cfg), bytes)]
           else []) ∧
    (∀ (result : NPrintML.NamedBytes) (writes : List (NPrintML.Path × List Nat)),
      NPrintML.execute_nprint cfg (.success bytes) npt_file = .ok (result, writes) →
        result.name = npt_file.getD (NPrintML.default_output cfg) ∧
        result.contents = bytes ∧
        ((npt_file.getD (NPrintML.default_output cfg), bytes) ∈ writes ↔
          cfg.save_nprint = true)) := by
  refine ⟨rfl, ?_⟩
  intro result writes h
  have h0 : NPrintML.execute_nprint cfg (.success bytes) npt_file =
      .ok (⟨bytes, npt_file.getD (NPrintML.default_output cfg)⟩,
           if cfg.save_nprint then
             [(npt_file.getD (NPrintML.default_output cfg), bytes)]
           else []) := rfl
  rw [h0, Except.ok.injEq, Prod.mk.injEq] at h
  obtain ⟨h1, h2⟩ := h
  subst h1
  subst h2
  refine ⟨rfl, rfl, ?_⟩
  cases hs : cfg.save_nprint <;> simp [hs]

/-- C8 witness: a success with no computed destination is tagged with the
default output path; with persistence off, nothing is written. -/
theorem C8_execute_success_witness :
    NPrintML.execute_nprint ⟨["o"], false⟩ (.success [7, 7]) none =
      .ok (⟨[7, 7], ["o", "nprint", "netcap.npt"]⟩, []) :=
  (C8_execute_success ⟨["o"], false⟩ [7, 7] none).1.trans (by rfl)

/-- C4: `prime_iterator` returns an iterator yielding exactly the same
elements in the same order (none lost, none duplicated) for every input
sequence; an empty iterator with a supplied default returns that default,
and with no default raises the empty-sequence error (`StopIteration`). -/
theorem C4_prime_round_trip :
    (∀ (xs : List Nat) (d : Option Nat), xs ≠ [] →
      ∃ p : NPrintML.PrimedIterator Nat,
        NPrintML.PrimedIterator.prime xs d = .ok (.primed p) ∧ p.drain.1 = xs) ∧
    (∀ d : Nat, NPrintML.PrimedIterator.prime ([] : List Nat) (some d) =
      .ok (.defaulted d)) ∧
    NPrintML.PrimedIterator.prime ([] : List Nat) (none : Option Nat) = .error () := by
  refine ⟨?_, fun d => rfl, rfl⟩
  intro xs d hne
  match xs with
  | x :: rest =>
      exact ⟨NPrintML.PrimedIterator.init x rest, rfl,
        NPrintML.drain_eq (x :: rest) |>.symm ▸ rfl⟩

/-- C4 witness: priming `[1, 2, 3]` round-trips at a concrete input. -/
theorem C4_prime_round_trip_witness :
    ∃ p : NPrintML.PrimedIterator Nat,
      NPrintML.PrimedIterator.prime [1, 2, 3] (none : Option Nat) = .ok (.primed p) ∧
      p.drain.1 = [1, 2, 3] :=
  C4_prime_round_trip.1 [1, 2, 3] none (by decide)

/-- C10: a `PrimedIterator` is single-use: every `__iter__` returns the same
underlying chain iterator, so elements taken by successive consumers
concatenate into a single pass over `first :: rest` (each element delivered
at most once in total), and a second full iteration after exhaustion yields
the empty sequence rather than replaying the elements. -/
theorem C10_primed_single_use :
    ∀ (first : Nat) (rest : List Nat),
      (∀ n m : Nat,
        ((NPrintML.PrimedIterator.init first rest).takeFrom n).1 ++
          (((NPrintML.PrimedIterator.init first rest).takeFrom n).2.takeFrom m).1 =
          (first :: rest).take (n + m)) ∧
      ((NPrintML.PrimedIterator.init first rest).drain.1 = first :: rest) ∧
      (((NPrintML.PrimedIterator.init first rest).drain.2).drain.1 = []) := by
  intro first rest
  refine ⟨?_, ?_, ?_⟩
  · intro n m
    simp only [NPrintML.PrimedIterator.init, NPrintML.takeFrom_eq]
    exact (List.take_add (first :: rest) n m).symm
  · simp [NPrintML.PrimedIterator.init, NPrintML.drain_eq]
  · simp [NPrintML.PrimedIterator.init, NPrintML.drain_eq]

namespace NPrintML

/-- A concrete two-item run at concurrency 2: both items are admitted and
started, item `1` completes before item `0`, and the drain yields `[1, 0]`. -/
theorem reaches_exFinal : Reaches 2 (fun _ => false) [0, 1] exFinal := by
  have h0 : Reaches 2 (fun _ => false) [0, 1]
      (⟨[], [0, 1], [], [], [], [], []⟩ : NetState Nat) := by
    have he : initState ([0, 1] : List Nat) = ⟨[], [0, 1], [], [], [], [], []⟩ := rfl
    exact he ▸ Reaches.init
  have h1 : Reaches 2 (fun _ => false) [0, 1]
      (⟨[], [1], [0], [], [], [], []⟩ : NetState Nat) :=
    h0.next (NetStep.start _ 0 [1] rfl (by decide))
  have h2 : Reaches 2 (fun _ => false) [0, 1]
      (⟨[], [], [0, 1], [], [], [], []⟩ : NetState Nat) :=
    h1.next (NetStep.start _ 1 [] rfl (by decide))
  have h3 : Reaches 2 (fun _ => false) [0, 1]
      (⟨[], [], [0], [1], [], [], [1]⟩ : NetState Nat) :=
    h2.next (NetStep.complete _ [0] [] 1 rfl)
  have h4 : Reaches 2 (fun _ => false) [0, 1]
      (⟨[], [], [], [1, 0], [], [], [1, 0]⟩ : NetState Nat) :=
    h3.next (NetStep.complete _ [] [] 0 rfl)
  exact h4.next (NetStep.drain _ [1, 0] (by decide) (List.Perm.refl _))

/-- A concrete two-item run at concurrency 2 in which item `0` completes
before item `1`, both are collected by the same wait round, and the round's
unordered completed set is iterated as `[1, 0]`: the yields invert the true
completion order `[0, 1]`. -/
theorem reaches_exBatchFinal : Reaches 2 (fun _ => false) [0, 1] exBatchFinal := by
  have h0 : Reaches 2 (fun _ => false) [0, 1]
      (⟨[], [0, 1], [], [], [], [], []⟩ : NetState Nat) := by
    have he : initState ([0, 1] : List Nat) = ⟨[], [0, 1], [], [], [], [], []⟩ := rfl
    exact he ▸ Reaches.init
  have h1 : Reaches 2 (fun _ => false) [0, 1]
      (⟨[], [1], [0], [], [], [], []⟩ : NetState Nat) :=
    h0.next (NetStep.start _ 0 [1] rfl (by decide))
  have h2 : Reaches 2 (fun _ => false) [0, 1]
      (⟨[], [], [0, 1], [], [], [], []⟩ : NetState Nat) :=
    h1.next (NetStep.start _ 1 [] rfl (by decide))
  have h3 : Reaches 2 (fun _ => false) [0, 1]
      (⟨[], [], [1], [0], [], [], [0]⟩ : NetState Nat) :=
    h2.next (NetStep.complete _ [] [1] 0 rfl)
  have h4 : Reaches 2 (fun _ => false) [0, 1]
      (⟨[], [], [], [0, 1], [], [], [0, 1]⟩ : NetState Nat) :=
    h3.next (NetStep.complete _ [] [] 1 rfl)
  exact h4.next (NetStep.drain _ [1, 0] (by decide) (by decide))

/-- Conservation invariant: yields, drops, pending futures and the undrawn
tail always partition the input; pending futures only vanish once the input
is exhausted. -/
theorem reach_conservation {α : Type} (conc : Nat) (fail : α → Bool) (input : List α)
    (s : NetState α) (h : Reaches conc fail input s) :
    s.yielded.length + s.dropped.length + pendingCount s + s.remaining.length =
      input.length ∧
    (s.remaining ≠ [] → 0 < pendingCount s) := by
  induction h with
  | init =>
      constructor
      · simp [initState, pendingCount, List.length_take, List.length_drop]
        omega
      · intro hne
        have hQ : 0 < NPRINT_QUEUE_MAX := by norm_num [NPRINT_QUEUE_MAX]
        have hlen : NPRINT_QUEUE_MAX < input.length := by
          have h' := List.length_pos.mpr hne
          simpa [initState] using h'
        simp [initState, pendingCount, List.length_take]
        omega
  | next hr hstep ih =>
      rename_i s s'
      obtain ⟨ih1, ih2⟩ := ih
      cases hstep with
      | start q qs hq hlt =>
          have hql : s.queued.length = qs.length + 1 := by
            rw [hq]
            simp
          constructor
          · simp only [pendingCount, List.length_append, List.length_cons,
              List.length_nil] at ih1 ⊢
            omega
          · intro hne
            have hpos := ih2 hne
            simp only [pendingCount, List.length_append, List.length_cons,
              List.length_nil] at hpos ⊢
            omega
      | complete l₁ l₂ a hrun =>
          have hrl : s.running.length = l₁.length + l₂.length + 1 := by
            rw [hrun]
            simp only [List.length_append, List.length_cons]
            omega
          constructor
          · simp only [pendingCount, List.length_append, List.length_cons,
              List.length_nil] at ih1 ⊢
            omega
          · intro hne
            have hpos := ih2 hne
            simp only [pendingCount, List.length_append, List.length_cons,
              List.length_nil] at hpos ⊢
            omega
      | drain batch hne hperm =>
          have hk : 0 < s.done.length := List.length_pos.mpr hne
          have hbl : batch.length = s.done.length := hperm.length_eq
          have hfil := @List.length_eq_length_filter_add _ batch fail
          constructor
          · simp only [pendingCount, List.length_append, List.length_take,
              List.length_drop, List.length_nil] at ih1 ⊢
            omega
          · intro hne'
            have hlen : batch.length < s.remaining.length := by
              simpa using List.length_pos.mpr hne'
            simp only [pendingCount, List.length_append, List.length_take,
              List.length_drop, List.length_nil] at ih1 ⊢
            omega

/-- Shuffling lemma for the drain step: reuniting the two filtered halves
of the completed batch inside a surrounding concatenation. -/
theorem perm_shuffle {α : Type} (f₁ f₂ d W done : List α) (h1 : (f₁ ++ f₂).Perm done) :
    (f₁ ++ (d ++ (f₂ ++ W))).Perm (d ++ (done ++ W)) := by
  have h2 : (f₁ ++ (f₂ ++ W)).Perm (done ++ W) := by
    rw [← List.append_assoc]
    exact h1.append_right W
  have h4 : (f₁ ++ (d ++ (f₂ ++ W))).Perm (d ++ (f₁ ++ (f₂ ++ W))) := by
    have ha : f₁ ++ (d ++ (f₂ ++ W)) = (f₁ ++ d) ++ (f₂ ++ W) :=
      (List.append_assoc _ _ _).symm
    have hb : ((f₁ ++ d) ++ (f₂ ++ W)).Perm ((d ++ f₁) ++ (f₂ ++ W)) :=
      List.perm_append_comm.append_right _
    have hc : (d ++ f₁) ++ (f₂ ++ W) = d ++ (f₁ ++ (f₂ ++ W)) := List.append_assoc _ _ _
    rw [ha, ← hc]
    exact hb
  exact h4.trans (h2.append_left d)

/-- Permutation invariant: the yields, drops, pending futures and the
undrawn tail are, together, a permutation of the input — no item is lost
and none is duplicated. -/
theorem reach_perm {α : Type} (conc : Nat) (fail : α → Bool) (input : List α)
    (s : NetState α) (h : Reaches conc fail input s) :
    (s.yielded ++ s.dropped ++ s.done ++ s.running ++ s.queued ++ s.remaining).Perm
      input := by
  induction h with
  | init =>
      simp only [initState, List.nil_append]
      rw [List.take_append_drop]
  | next hr hstep ih =>
      rename_i s s'
      cases hstep with
      | start q qs hq hlt =>
          rw [hq] at ih
          simp only [List.append_assoc, List.singleton_append, List.cons_append] at ih ⊢
          exact ih
      | complete l₁ l₂ a hrun =>
          rw [hrun] at ih
          simp only [List.append_assoc, List.singleton_append, List.cons_append] at ih ⊢
          refine List.Perm.trans ?_ ih
          exact List.Perm.append_left _ (List.Perm.append_left _
            (List.Perm.append_left _
              (@List.perm_middle _ a l₁ (l₂ ++ (s.queued ++ s.remaining))).symm))
      | drain batch hne hperm =>
          simp only [List.append_assoc, List.nil_append, List.append_nil] at ih ⊢
          rw [List.take_append_drop]
          refine List.Perm.trans (List.Perm.append_left _ ?_) ih
          exact perm_shuffle _ _ _ _ _
            ((List.perm_append_comm.trans (List.filter_append_perm fail batch)).trans hperm)

/-- Completion-log invariant: the log splits into a processed part — whose
successes are exactly the yields, delivered round by round with an
arbitrary order inside each round — followed by the not-yet-collected
completed tasks. -/
theorem reach_batched {α : Type} (conc : Nat) (fail : α → Bool) (input : List α)
    (s : NetState α) (h : Reaches conc fail input s) :
    ∃ pr : List α, s.log = pr ++ s.done ∧ Batched fail pr s.yielded := by
  induction h with
  | init => exact ⟨[], rfl, Batched.nil⟩
  | next hr hstep ih =>
      rename_i s s'
      obtain ⟨pr, h1, h2⟩ := ih
      cases hstep with
      | start q qs hq hlt => exact ⟨pr, h1, h2⟩
      | complete l₁ l₂ a hrun =>
          refine ⟨pr, ?_, h2⟩
          show s.log ++ [a] = pr ++ (s.done ++ [a])
          rw [h1, List.append_assoc]
      | drain batch hne hperm =>
          refine ⟨pr ++ s.done, ?_, ?_⟩
          · show s.log = pr ++ s.done ++ []
            rw [h1, List.append_nil]
          · exact Batched.snoc pr s.yielded s.done batch h2 hne hperm

end NPrintML

/-- C1: throughout the streaming phase of `generate_npts`, for every
filtered-input sequence and every schedule, the number of concurrently
executing invocations never exceeds the concurrency limit, the number of
admitted-but-not-yet-drained futures never exceeds
`NPRINT_QUEUE_MAX = 10^6`, and the initial fill admits exactly
`min(NPRINT_QUEUE_MAX, available)` items (each completion then draws at
most one more, as the `drain` transition shows). -/
theorem C1_bounded_concurrency {α : Type} (conc : Nat) (fail : α → Bool)
    (input : List α) (s : NPrintML.NetState α)
    (h : NPrintML.Reaches conc fail input s) :
    s.running.length ≤ conc ∧
    NPrintML.pendingCount s ≤ NPrintML.NPRINT_QUEUE_MAX ∧
    NPrintML.pendingCount (NPrintML.initState input) =
      min NPrintML.NPRINT_QUEUE_MAX input.length := by
  have hinit : NPrintML.pendingCount (NPrintML.initState input) =
      min NPrintML.NPRINT_QUEUE_MAX input.length := by
    simp [NPrintML.initState, NPrintML.pendingCount, List.length_take]
  refine ⟨?_, ?_, hinit⟩
  · induction h with
    | init => simp [NPrintML.initState]
    | next hr hstep ih =>
        rename_i s s'
        cases hstep with
        | start q qs hq hlt =>
            simp only [List.length_append, List.length_cons, List.length_nil]
            omega
        | complete l₁ l₂ a hrun =>
            have hrl : s.running.length = l₁.length + l₂.length + 1 := by
              rw [hrun]
              simp only [List.length_append, List.length_cons]
              omega
            simp only [List.length_append]
            omega
        | drain batch hne hperm => exact ih
  · induction h with
    | init =>
        simp [NPrintML.initState, NPrintML.pendingCount, List.length_take]
    | next hr hstep ih =>
        rename_i s s'
        cases hstep with
        | start q qs hq hlt =>
            have hql : s.queued.length = qs.length + 1 := by
              rw [hq]
              simp
            simp only [NPrintML.pendingCount, List.length_append, List.length_cons,
              List.length_nil] at ih ⊢
            omega
        | complete l₁ l₂ a hrun =>
            have hrl : s.running.length = l₁.length + l₂.length + 1 := by
              rw [hrun]
              simp only [List.length_append, List.length_cons]
              omega
            simp only [NPrintML.pendingCount, List.length_append, List.length_cons,
              List.length_nil] at ih ⊢
            omega
        | drain batch hne hperm =>
            have hbl : batch.length = s.done.length := hperm.length_eq
            simp only [NPrintML.pendingCount, List.length_append, List.length_take,
              List.length_drop, List.length_nil] at ih ⊢
            omega

/-- C1 witness: the invariant at the end of the concrete two-item run. -/
theorem C1_bounded_concurrency_witness :
    NPrintML.exFinal.running.length ≤ 2 ∧
    NPrintML.pendingCount NPrintML.exFinal ≤ NPrintML.NPRINT_QUEUE_MAX ∧
    NPrintML.pendingCount (NPrintML.initState [0, 1]) =
      min NPrintML.NPRINT_QUEUE_MAX ([0, 1] : List Nat).length :=
  C1_bounded_concurrency 2 (fun _ => false) [0, 1] NPrintML.exFinal
    NPrintML.reaches_exFinal

/-- C2: for every filtered-input sequence of length `N` and every schedule
that runs the stream to completion (`while futures:` exits), the results
delivered — successes yielded plus failures recorded as dropped — number
exactly `N`, and are in fact a permutation of the input: exactly one
outcome per admitted item, never both, never neither. -/
theorem C2_conservation {α : Type} (conc : Nat) (fail : α → Bool)
    (input : List α) (s : NPrintML.NetState α)
    (h : NPrintML.Reaches conc fail input s) (hf : NPrintML.Final s) :
    s.yielded.length + s.dropped.length = input.length ∧
    (s.yielded ++ s.dropped).Perm input := by
  obtain ⟨h1, h2⟩ := NPrintML.reach_conservation conc fail input s h
  have hperm := NPrintML.reach_perm conc fail input s h
  obtain ⟨hq, hr, hd⟩ := hf
  have hpc : NPrintML.pendingCount s = 0 := by
    simp [NPrintML.pendingCount, hq, hr, hd]
  have hrem : s.remaining = [] := by
    by_contra hne
    exact absurd (h2 hne) (by omega)
  rw [hq, hr, hd, hrem] at hperm
  simp only [List.append_nil] at hperm
  refine ⟨?_, hperm⟩
  have hlen := hperm.length_eq
  simpa [List.length_append] using hlen

/-- C2 witness: the two-item run delivers exactly two results, a
permutation of its input. -/
theorem C2_conservation_witness :
    (NPrintML.exFinal.yielded.length + NPrintML.exFinal.dropped.length =
      ([0, 1] : List Nat).length) ∧
    (NPrintML.exFinal.yielded ++ NPrintML.exFinal.dropped).Perm [0, 1] :=
  C2_conservation 2 (fun _ => false) [0, 1] NPrintML.exFinal
    NPrintML.reaches_exFinal ⟨rfl, rfl, rfl⟩

/-- C3 counterexample: a complete run of `[0, 1]` at concurrency 2 in
which item `0` completes before item `1` (completion log `[0, 1]`) yet the
results are yielded `[1, 0]` — the single wait round returned both futures
in an unordered set which the loop iterated against completion order. The
yielded sequence is not the completion log's successes in log order, so
strict completion-order delivery does not hold for every schedule. -/
theorem C3_completion_order_counterexample :
    NPrintML.Reaches 2 (fun _ => false) [0, 1] NPrintML.exBatchFinal ∧
    NPrintML.Final NPrintML.exBatchFinal ∧
    NPrintML.exBatchFinal.log = [0, 1] ∧
    NPrintML.exBatchFinal.yielded = [1, 0] ∧
    NPrintML.exBatchFinal.yielded ≠
      NPrintML.exBatchFinal.log.filter (fun a => !(fun _ : Nat => false) a) :=
  ⟨NPrintML.reaches_exBatchFinal, ⟨rfl, rfl, rfl⟩, rfl, rfl, by decide⟩

/-- C3 (amended): `generate_npts` yields results in batch completion
order, not submission order: over any complete run and any schedule of
per-item completion times, the yielded sequence is the completion log's
successes delivered round by round — every result completing in an earlier
`concurrent.futures.wait` round is yielded before any result of a later
round — but within one round the loop iterates an unordered completed set,
so the per-round order is arbitrary and strict completion order holds only
at batch granularity; no ordering relative to the input sequence is
preserved (a run of `[0, 1]` can come out as `[1, 0]`). -/
theorem C3_batched_completion_order :
    (∀ (α : Type) (conc : Nat) (fail : α → Bool) (input : List α)
        (s : NPrintML.NetState α),
      NPrintML.Reaches conc fail input s → NPrintML.Final s →
        NPrintML.Batched fail s.log s.yielded) ∧
    (NPrintML.Reaches 2 (fun _ => false) [0, 1] NPrintML.exFinal ∧
      NPrintML.Final NPrintML.exFinal ∧
      NPrintML.exFinal.yielded = [1, 0] ∧ [1, 0] ≠ [0, 1]) := by
  constructor
  · intro α conc fail input s h hf
    obtain ⟨pr, h1, h2⟩ := NPrintML.reach_batched conc fail input s h
    obtain ⟨hq, hr, hd⟩ := hf
    rw [hd, List.append_nil] at h1
    subst h1
    exact h2
  · exact ⟨NPrintML.reaches_exFinal, ⟨rfl, rfl, rfl⟩, rfl, by decide⟩

/-- C3 (amended) witness: the batch-order delivery at the end of the
concrete two-item run whose completion log is `[1, 0]`. -/
theorem C3_batched_completion_order_witness :
    NPrintML.Final NPrintML.exFinal ∧
    NPrintML.Batched (fun _ : Nat => false) NPrintML.exFinal.log
      NPrintML.exFinal.yielded :=
  ⟨⟨rfl, rfl, rfl⟩,
    C3_batched_completion_order.1 Nat 2 (fun _ => false) [0, 1] NPrintML.exFinal
      NPrintML.reaches_exFinal ⟨rfl, rfl, rfl⟩⟩

/-- C10 witness: the shared chain over `[1, 2, 3]`: two consumers' takes
concatenate into one pass, and a drain after a drain yields nothing. -/
theorem C10_primed_single_use_witness :
    (((NPrintML.PrimedIterator.init 1 [2, 3]).takeFrom 2).1 ++
        ((((NPrintML.PrimedIterator.init 1 [2, 3]).takeFrom 2).2).takeFrom 5).1 =
      ([1, 2, 3] : List Nat).take (2 + 5)) ∧
    ((NPrintML.PrimedIterator.init 1 [2, 3]).drain.1 = [1, 2, 3]) ∧
    (((NPrintML.PrimedIterator.init (1 : Nat) [2, 3]).drain.2).drain.1 = []) :=
  ⟨(C10_primed_single_use 1 [2, 3]).1 2 5, (C10_primed_single_use 1 [2, 3]).2.1,
    (C10_primed_single_use 1 [2, 3]).2.2⟩
